import Mathlib

/-!
Shallow embedding of the `meta-heuristics` Rust library (files
`src/firefly.rs` and `src/pso.rs`) and proofs about its update algorithms.

The Rust code is generic over a candidate type implementing a trait
(`Firefly` resp. `Particle`).  We embed each trait as a structure of
operations (`FireflyOps`, `PSOOps`) over abstract types `T` (candidate),
`Pos` (position), `Eval` (evaluation) and a scalar field `F` standing for
`f64` in exact arithmetic.  `f64::exp` is modelled as an uninterpreted
function `expF` carried by the operations structure, since the code treats
it as a black-box scalar function.  Rust's `PartialOrd::gt` on evaluations
is the boolean `gtE`, and the `Ord` total order on PSO candidates is `cmp`.
Fallible operations (`Vec::iter().max().unwrap()`, which panics on an empty
population) are embedded with `Option`.
-/

/-- Operations of the `Firefly` trait from `src/firefly.rs`, together with
the `Add`/`Sub`/`Mul<f64>` bounds on the position type and the
`PartialOrd` bound on the evaluation type. -/
structure FireflyOps (T Pos Eval F : Type) where
  addP : Pos → Pos → Pos
  subP : Pos → Pos → Pos
  mulP : Pos → F → Pos
  gtE : Eval → Eval → Bool
  eval : T → Eval
  distance : T → T → F
  pos : T → Pos
  setPos : T → Pos → T
  expF : F → F

/-- The state of `FireflyAlg` from `src/firefly.rs`: the population of
`(candidate, cached evaluation)` pairs and the two hyperparameters. -/
structure FireflyState (T Eval F : Type) where
  fireflies : List (T × Eval)
  beta : F
  absorption : F
deriving DecidableEq

/-- One iteration of the inner `j` loop of `FireflyAlg::update`: `ffi` is
the original entry at the outer index `i`, `cur` is the staging buffer's
current entry at index `i`, and `ffj` is the original entry at index `j`.
If `ffj`'s cached evaluation strictly exceeds `ffi`'s, the staged position
is overwritten with `pos(i) + (pos(j) - pos(i)) * beta * exp(-d*d*absorption)`
(computed from the original entries) and the cached evaluation recomputed. -/
def attractStep {T Pos Eval F : Type} [Field F] (ops : FireflyOps T Pos Eval F)
    (beta absorption : F) (ffi cur ffj : T × Eval) : T × Eval :=
  if ops.gtE ffj.2 ffi.2 then
    let dist := ops.distance ffi.1 ffj.1
    let pos_diff := ops.mulP (ops.mulP (ops.subP (ops.pos ffj.1) (ops.pos ffi.1)) beta)
        (ops.expF (-dist * dist * absorption))
    let new_pos := ops.addP (ops.pos ffi.1) pos_diff
    let t := ops.setPos cur.1 new_pos
    (t, ops.eval t)
  else cur

/-- The full inner `j` loop of `FireflyAlg::update` for one outer index:
the staging entry starts as a clone of the original entry and is folded
over the whole original population in index order. -/
def updateEntry {T Pos Eval F : Type} [Field F] (ops : FireflyOps T Pos Eval F)
    (beta absorption : F) (orig : List (T × Eval)) (ffi : T × Eval) : T × Eval :=
  orig.foldl (attractStep ops beta absorption ffi) ffi

/-- `FireflyAlg::update` from `src/firefly.rs`: clone the population into a
staging buffer, run the double loop reading only the original population,
then swap the staging buffer in. -/
def FireflyAlg.update {T Pos Eval F : Type} [Field F] (ops : FireflyOps T Pos Eval F)
    (s : FireflyState T Eval F) : FireflyState T Eval F :=
  { s with fireflies := s.fireflies.map (updateEntry ops s.beta s.absorption s.fireflies) }

/-- `FireflyAlg::new` from `src/firefly.rs`: draw `n` random candidates
(the random source is modelled by the stream `draws`), evaluate each once
and store the pairs.  Note that this constructor is total: it signals no
error for `n = 0`. -/
def FireflyAlg.new {T Pos Eval F : Type} (ops : FireflyOps T Pos Eval F)
    (n : ℕ) (beta absorption : F) (draws : ℕ → T) : FireflyState T Eval F :=
  { fireflies := (List.range n).map fun k => ((draws k), ops.eval (draws k)),
    beta := beta, absorption := absorption }

/-- Lawfulness of a `FireflyOps` instance: writing through `pos_mut` stores
the written position, and the `PartialOrd` on evaluations is irreflexive in
its strict form (true of every lawful Rust `PartialOrd`, in particular of
`f64`). -/
structure FFLawful {T Pos Eval F : Type} (ops : FireflyOps T Pos Eval F) : Prop where
  pos_set : ∀ t p, ops.pos (ops.setPos t p) = p
  gt_irrefl : ∀ e, ops.gtE e e = false

/-- Operations of the `Particle` trait from `src/pso.rs`, together with the
position-type arithmetic bounds, the `PartialOrd` bound on evaluations
(`gtE`) and the `Ord` bound on the candidate type (`cmp`). -/
structure PSOOps (T Pos Eval F : Type) where
  addP : Pos → Pos → Pos
  subP : Pos → Pos → Pos
  mulP : Pos → F → Pos
  eval : T → Eval
  pos : T → Pos
  vel : T → Pos
  pbest : T → Pos × Eval
  setPos : T → Pos → T
  setVel : T → Pos → T
  setPbest : T → Pos × Eval → T
  gtE : Eval → Eval → Bool
  cmp : T → T → Ordering

/-- The state of `PSO` from `src/pso.rs`: the population, the three
hyperparameters (the source spells inertia `inetia`) and the cached global
best. -/
structure PSOState (T Eval F : Type) where
  particles : List T
  inetia : F
  c_local : F
  c_global : F
  best : T × Eval
deriving DecidableEq

/-- Rust's `Iterator::max`: `None` on the empty list, otherwise the
left-to-right reduction that replaces the accumulator whenever it does not
compare strictly greater than the next element — so among equal maxima the
last (later-index) one is retained. -/
def rustMax {T : Type} (cmp : T → T → Ordering) : List T → Option T
  | [] => none
  | x :: xs => some (xs.foldl (fun a b => if cmp a b = Ordering.gt then a else b) x)

/-- `PSO::calc_best` from `src/pso.rs`: `particles.iter().max().unwrap()`
paired with its evaluation; the `unwrap` panic on an empty population is
modelled by `Option`. -/
def calc_best {T Pos Eval F : Type} (ops : PSOOps T Pos Eval F)
    (ps : List T) : Option (T × Eval) :=
  (rustMax ops.cmp ps).map fun b => (b, ops.eval b)

/-- Pass 1 of `PSO::update`: `position := position + velocity` for every
particle. -/
def pass1 {T Pos Eval F : Type} (ops : PSOOps T Pos Eval F) (ps : List T) : List T :=
  ps.map fun p => ops.setPos p (ops.addP (ops.pos p) (ops.vel p))

/-- Pass 2 of `PSO::update`: the velocity update, consuming two fresh
random draws per particle in iteration order (particle `k` uses draws
`r (2*k)` and `r (2*k+1)`, matching the two `rand_01()` calls). `gpos` is
the position of the cached global best read at the start of the pass. -/
def pass2 {T Pos Eval F : Type} (ops : PSOOps T Pos Eval F)
    (w cl cg : F) (gpos : Pos) (r : ℕ → F) : ℕ → List T → List T
  | _, [] => []
  | k, p :: ps =>
    ops.setVel p (ops.addP (ops.addP (ops.mulP (ops.vel p) w)
        (ops.mulP (ops.mulP (ops.subP (ops.pbest p).1 (ops.pos p)) cl) (r (2 * k))))
      (ops.mulP (ops.mulP (ops.subP gpos (ops.pos p)) cg) (r (2 * k + 1))))
      :: pass2 ops w cl cg gpos r (k + 1) ps

/-- Pass 3 of `PSO::update`: evaluate each particle and replace its
personal best exactly when the new evaluation strictly exceeds the stored
one. -/
def pass3 {T Pos Eval F : Type} (ops : PSOOps T Pos Eval F) (ps : List T) : List T :=
  ps.map fun p =>
    if ops.gtE (ops.eval p) (ops.pbest p).2 then ops.setPbest p (ops.pos p, ops.eval p) else p

/-- `PSO::update` from `src/pso.rs`: the three sequential passes, then
recompute the best candidate, replace the cached global best exactly when
strictly better and return the stagnation flag (`true` = stagnated).
`none` models the `unwrap` panic on an empty population. -/
def PSO.update {T Pos Eval F : Type} (ops : PSOOps T Pos Eval F)
    (s : PSOState T Eval F) (r : ℕ → F) : Option (PSOState T Eval F × Bool) :=
  let ps1 := pass1 ops s.particles
  let ps2 := pass2 ops s.inetia s.c_local s.c_global (ops.pos s.best.1) r 0 ps1
  let ps3 := pass3 ops ps2
  (calc_best ops ps3).map fun best =>
    if ops.gtE best.2 s.best.2 then ({ s with particles := ps3, best := best }, false)
    else ({ s with particles := ps3 }, true)

/-- `PSO::new` from `src/pso.rs`: draw `n` random particles (modelled by
the stream `draws`) and compute the initial global best; `none` models the
`unwrap` panic of `calc_best` on an empty population. -/
def PSO.new {T Pos Eval F : Type} (ops : PSOOps T Pos Eval F)
    (n : ℕ) (w cl cg : F) (draws : ℕ → T) : Option (PSOState T Eval F) :=
  let particles := (List.range n).map draws
  (calc_best ops particles).map fun best =>
    { particles := particles, inetia := w, c_local := cl, c_global := cg, best := best }

/-- Iterated `PSO::update` driven by a family of random streams (`R k` is
the stream used by step `k`); `none` once any step panics. -/
def iteratePSO {T Pos Eval F : Type} (ops : PSOOps T Pos Eval F)
    (R : ℕ → ℕ → F) (s0 : PSOState T Eval F) : ℕ → Option (PSOState T Eval F)
  | 0 => some s0
  | k + 1 => (iteratePSO ops R s0 k).bind fun s => (PSO.update ops s (R k)).map Prod.fst

/-- Modelled from the spec (§4.3, step algorithm): the reference
per-candidate result of one PSO step.  Pass 1 moves the position by the
velocity left over from the previous step; pass 2 sets
`velocity := velocity * inertia + (personal_best.position - position) * c_local * r1
+ (global_best.position - position) * c_global * r2` where `position` is
the pass-1-updated value and `gpos` is the global best snapshot from the
end of the previous step; pass 3 replaces the personal best exactly when
the new evaluation strictly exceeds the stored one. -/
def specStep {T Pos Eval F : Type} (ops : PSOOps T Pos Eval F)
    (w cl cg : F) (gpos : Pos) (r1 r2 : F) (p : T) : T :=
  let pos1 := ops.addP (ops.pos p) (ops.vel p)
  let v := ops.addP (ops.addP (ops.mulP (ops.vel p) w)
      (ops.mulP (ops.mulP (ops.subP (ops.pbest p).1 pos1) cl) r1))
    (ops.mulP (ops.mulP (ops.subP gpos pos1) cg) r2)
  let p2 := ops.setVel (ops.setPos p pos1) v
  if ops.gtE (ops.eval p2) (ops.pbest p).2 then ops.setPbest p2 (pos1, ops.eval p2) else p2

/-- Lawfulness of a `PSOOps` instance: the accessor/mutator pairs behave as
Rust field accesses do, the evaluation depends only on the position, the
strict comparison on evaluations agrees with a linear order (true of `f64`
on finite values), and the candidate total order is consistent with
ordering by evaluation (the consistency the spec requires of `Ord`). -/
structure PSOLawful {T Pos Eval F : Type} [LinearOrder Eval]
    (ops : PSOOps T Pos Eval F) : Prop where
  pos_set : ∀ t p, ops.pos (ops.setPos t p) = p
  pos_setVel : ∀ t v, ops.pos (ops.setVel t v) = ops.pos t
  pos_setPb : ∀ t b, ops.pos (ops.setPbest t b) = ops.pos t
  vel_set : ∀ t v, ops.vel (ops.setVel t v) = v
  vel_setPos : ∀ t p, ops.vel (ops.setPos t p) = ops.vel t
  pbest_setPos : ∀ t p, ops.pbest (ops.setPos t p) = ops.pbest t
  pbest_setVel : ∀ t v, ops.pbest (ops.setVel t v) = ops.pbest t
  pbest_set : ∀ t b, ops.pbest (ops.setPbest t b) = b
  eval_pos : ∀ t u, ops.pos t = ops.pos u → ops.eval t = ops.eval u
  gt_iff : ∀ a b, ops.gtE a b = true ↔ b < a
  cmp_eval : ∀ a b, ops.cmp a b = compare (ops.eval a) (ops.eval b)

/-- A concrete scalar Firefly candidate instance in the shape of the doc
example of `src/firefly.rs`: positions and evaluations are rationals, the
candidate is its position, and the objective is the documented
`1 - ((x - 3) * x + 2) * x * x`.  `expF` is an arbitrary computable stand-in
for `f64::exp` (the theorems never depend on its values). -/
def qFirefly : FireflyOps ℚ ℚ ℚ ℚ where
  addP := fun a b => a + b
  subP := fun a b => a - b
  mulP := fun p c => p * c
  gtE := fun a b => decide (b < a)
  eval := fun x => 1 - ((x - 3) * x + 2) * x * x
  distance := fun a b => |a - b|
  pos := fun x => x
  setPos := fun _ p => p
  expF := fun x => 1 + x

/-- A scalar PSO particle: position, velocity and personal best are
scalars, as in a 1-dimensional instance of the `Particle` trait. -/
structure SParticle (F : Type) where
  pos : F
  vel : F
  pbest : F × F
deriving DecidableEq

/-- A concrete scalar `Particle` instance over an ordered field, shaped
like the doc example of `src/pso.rs`: the evaluation applies the objective
`f` to the position and the candidate total order compares evaluations. -/
def scalarPSO (F : Type) [LinearOrderedField F] (f : F → F) : PSOOps (SParticle F) F F F where
  addP := fun a b => a + b
  subP := fun a b => a - b
  mulP := fun p c => p * c
  eval := fun p => f p.pos
  pos := fun p => p.pos
  vel := fun p => p.vel
  pbest := fun p => p.pbest
  setPos := fun p x => { p with pos := x }
  setVel := fun p v => { p with vel := v }
  setPbest := fun p b => { p with pbest := b }
  gtE := fun a b => decide (b < a)
  cmp := fun a b => compare (f a.pos) (f b.pos)

/-! Helper lemmas about the Firefly inner loop. -/

/-- If no element of the folded list is strictly brighter than the fixed
outer candidate `fi`, the staging entry is never written. -/
lemma foldl_attractStep_no_trigger {T Pos Eval F : Type} [Field F]
    (ops : FireflyOps T Pos Eval F) (beta absorption : F) (fi : T × Eval)
    (l : List (T × Eval)) (cur : T × Eval)
    (h : ∀ q ∈ l, ops.gtE q.2 fi.2 = false) :
    l.foldl (attractStep ops beta absorption fi) cur = cur := by
  induction l generalizing cur with
  | nil => rfl
  | cons x xs ih =>
    have hx : attractStep ops beta absorption fi cur x = cur := by
      simp [attractStep, h x (by simp)]
    rw [List.foldl_cons, hx]
    exact ih cur fun q hq => h q (by simp [hq])

/-- If the folded list decomposes as `l1 ++ fj :: l2` where `fj` is strictly
brighter than `fi` and nothing in `l2` is, the final staged position is the
one written while processing `fj`, computed from `fi` and `fj` alone. -/
lemma pos_foldl_attractStep_last {T Pos Eval F : Type} [Field F]
    (ops : FireflyOps T Pos Eval F) (hl : FFLawful ops) (beta absorption : F)
    (fi fj : T × Eval) (l1 l2 : List (T × Eval)) (cur : T × Eval)
    (htrig : ops.gtE fj.2 fi.2 = true)
    (h2 : ∀ q ∈ l2, ops.gtE q.2 fi.2 = false) :
    ops.pos ((l1 ++ fj :: l2).foldl (attractStep ops beta absorption fi) cur).1 =
      ops.addP (ops.pos fi.1)
        (ops.mulP (ops.mulP (ops.subP (ops.pos fj.1) (ops.pos fi.1)) beta)
          (ops.expF (-ops.distance fi.1 fj.1 * ops.distance fi.1 fj.1 * absorption))) := by
  rw [List.foldl_append, List.foldl_cons,
    foldl_attractStep_no_trigger ops beta absorption fi l2 _ h2]
  simp [attractStep, htrig, hl.pos_set]

/-- C6: for a Firefly population of size exactly 1, `update()` is a no-op:
the whole engine state (in particular the single candidate's position and
cached evaluation) is unchanged, for every `beta` and `absorption` (which
are part of the arbitrary state `s`), because the only inner-loop
comparison is the candidate's evaluation against itself and a lawful
strict comparison is irreflexive. -/
theorem firefly_singleton_noop {T Pos Eval F : Type} [Field F]
    (ops : FireflyOps T Pos Eval F) (hl : FFLawful ops)
    (s : FireflyState T Eval F) (p : T × Eval) (hp : s.fireflies = [p]) :
    FireflyAlg.update ops s = s := by
  obtain ⟨l, beta, absorption⟩ := s
  simp only [FireflyState.mk.injEq] at hp
  subst hp
  simp [FireflyAlg.update, updateEntry, attractStep, hl.gt_irrefl]

/-- C10: if no candidate's cached evaluation strictly exceeds that of the
entry `p` at index `i` (so `p` is maximal; the comparison of `p` with
itself is also never "strictly greater" for a lawful order), then one
Firefly sweep leaves entry `i` — position and cached evaluation — exactly
unchanged: the inner loop never fires, so the staged entry stays the
clone of the original. -/
theorem firefly_max_entry_unchanged {T Pos Eval F : Type} [Field F]
    (ops : FireflyOps T Pos Eval F) (s : FireflyState T Eval F)
    (i : ℕ) (p : T × Eval) (hp : s.fireflies[i]? = some p)
    (h : ∀ q ∈ s.fireflies, ops.gtE q.2 p.2 = false) :
    (FireflyAlg.update ops s).fireflies[i]? = some p := by
  simp only [FireflyAlg.update, List.getElem?_map, hp, Option.map_some']
  rw [updateEntry, foldl_attractStep_no_trigger ops s.beta s.absorption p s.fireflies p h]

/-- C1: after one Firefly sweep, the final position of candidate `i` is
determined only by the last (highest-index) candidate `j` whose cached
evaluation strictly exceeds `i`'s (hypotheses `htrig` and `hlast`), and it
equals `position(i) + (position(j) - position(i)) * beta *
exp(-(absorption * distance(i,j)^2))`, computed from the pre-sweep entries
of `i` and `j` exclusively — earlier attractions in the sweep are
overwritten, never accumulated. -/
theorem firefly_last_brighter_wins {T Pos Eval F : Type} [Field F]
    (ops : FireflyOps T Pos Eval F) (hl : FFLawful ops)
    (s : FireflyState T Eval F) (i j : ℕ) (fi fj : T × Eval)
    (hfi : s.fireflies[i]? = some fi) (hfj : s.fireflies[j]? = some fj)
    (htrig : ops.gtE fj.2 fi.2 = true)
    (hlast : ∀ k (fk : T × Eval), j < k → s.fireflies[k]? = some fk →
      ops.gtE fk.2 fi.2 = false) :
    ∃ q : T × Eval, (FireflyAlg.update ops s).fireflies[i]? = some q ∧
      ops.pos q.1 = ops.addP (ops.pos fi.1)
        (ops.mulP (ops.mulP (ops.subP (ops.pos fj.1) (ops.pos fi.1)) s.beta)
          (ops.expF (-(s.absorption * ops.distance fi.1 fj.1 ^ 2)))) := by
  refine ⟨updateEntry ops s.beta s.absorption s.fireflies fi, ?_, ?_⟩
  · simp [FireflyAlg.update, List.getElem?_map, hfi]
  · have hjlen : j < s.fireflies.length := (List.getElem?_eq_some.mp hfj).1
    have hgetj : s.fireflies[j] = fj := by
      have := List.getElem?_eq_getElem hjlen
      rw [hfj] at this
      exact (Option.some.injEq _ _).mp this.symm
    have hdecomp : s.fireflies = s.fireflies.take j ++ fj :: s.fireflies.drop (j + 1) := by
      rw [← hgetj, List.getElem_cons_drop, List.take_append_drop]
    have h2 : ∀ q ∈ s.fireflies.drop (j + 1), ops.gtE q.2 fi.2 = false := by
      intro q hq
      obtain ⟨m, hm, hqm⟩ := List.mem_iff_getElem.mp hq
      have hq1 : (s.fireflies.drop (j + 1))[m]? = some q := by
        rw [List.getElem?_eq_getElem hm]
        exact congrArg some hqm
      rw [List.getElem?_drop] at hq1
      exact hlast (j + 1 + m) q (by omega) hq1
    rw [updateEntry]
    conv_lhs => rw [hdecomp]
    rw [pos_foldl_attractStep_last ops hl s.beta s.absorption fi fj _ _ fi htrig h2]
    have harg : -ops.distance fi.1 fj.1 * ops.distance fi.1 fj.1 * s.absorption =
        -(s.absorption * ops.distance fi.1 fj.1 ^ 2) := by ring
    rw [harg]

/-- C4 counterexample: at the concrete input `population_size = 0`,
`beta = absorption = 1`, the Firefly engine's constructor does NOT fail
fast: it silently returns a usable engine with an empty population, on
which `update()` runs fine and is the identity.  (The PSO constructor, in
contrast, does panic — see the amended theorem.)  This refutes the claim
that NEITHER constructor proceeds without signalling a configuration
error. -/
theorem firefly_new_zero_succeeds_cex :
    (FireflyAlg.new qFirefly 0 1 1 fun _ => 0).fireflies = [] ∧
    FireflyAlg.update qFirefly (FireflyAlg.new qFirefly 0 1 1 fun _ => 0) =
      FireflyAlg.new qFirefly 0 1 1 (fun _ => 0) :=
  ⟨rfl, rfl⟩

/-- C4 (amended): with `population_size = 0`, PSO's constructor fails fast
(`max().unwrap()` panics on the empty population, modelled by `none`),
but Firefly's constructor succeeds silently, returning a usable engine
with an empty population on which `update()` is the identity — no
configuration error is signalled. -/
theorem new_zero_population_amended {T Pos Eval F T2 Pos2 Eval2 F2 : Type} [Field F]
    (opsF : FireflyOps T Pos Eval F) (opsP : PSOOps T2 Pos2 Eval2 F2)
    (beta absorption : F) (w cl cg : F2) (dF : ℕ → T) (dP : ℕ → T2) :
    PSO.new opsP 0 w cl cg dP = none ∧
    (FireflyAlg.new opsF 0 beta absorption dF).fireflies = [] ∧
    FireflyAlg.update opsF (FireflyAlg.new opsF 0 beta absorption dF) =
      FireflyAlg.new opsF 0 beta absorption dF :=
  ⟨rfl, rfl, rfl⟩

/-- The concrete scalar Firefly instance is lawful. -/
lemma qFirefly_lawful : FFLawful qFirefly := by
  constructor
  · intro t p
    rfl
  · intro e
    simp [qFirefly]

/-- Witness for C1 at a concrete 3-candidate population shaped like the
spec's last-brighter-wins test: candidate 0 has the lowest cached
evaluation, candidates 1 and 2 are both brighter, and candidate 0's
post-sweep position is the one computed from candidate 2 alone. -/
theorem firefly_last_brighter_wins_witness :
    qFirefly.gtE ((2:ℚ), (7:ℚ)).2 ((0:ℚ), (0:ℚ)).2 = true ∧
    ∃ q : ℚ × ℚ,
      (FireflyAlg.update qFirefly
          ⟨[((0:ℚ), (0:ℚ)), ((1:ℚ), (5:ℚ)), ((2:ℚ), (7:ℚ))], 1, 1⟩).fireflies[0]? = some q ∧
      qFirefly.pos q.1 = qFirefly.addP (qFirefly.pos ((0:ℚ), (0:ℚ)).1)
        (qFirefly.mulP
          (qFirefly.mulP
            (qFirefly.subP (qFirefly.pos ((2:ℚ), (7:ℚ)).1) (qFirefly.pos ((0:ℚ), (0:ℚ)).1)) 1)
          (qFirefly.expF
            (-(1 * qFirefly.distance ((0:ℚ), (0:ℚ)).1 ((2:ℚ), (7:ℚ)).1 ^ 2)))) := by
  refine ⟨by decide, ?_⟩
  refine firefly_last_brighter_wins qFirefly qFirefly_lawful
    ⟨[((0:ℚ), (0:ℚ)), ((1:ℚ), (5:ℚ)), ((2:ℚ), (7:ℚ))], 1, 1⟩ 0 2
    ((0:ℚ), (0:ℚ)) ((2:ℚ), (7:ℚ)) rfl rfl (by decide) ?_
  intro k fk hk hfk
  have : ([((0:ℚ), (0:ℚ)), ((1:ℚ), (5:ℚ)), ((2:ℚ), (7:ℚ))] :
      List (ℚ × ℚ))[k]? = none := by
    apply List.getElem?_eq_none
    simpa using hk
  rw [this] at hfk
  cases hfk

/-- Witness for C6 at a concrete 1-candidate population. -/
theorem firefly_singleton_noop_witness :
    (⟨[((1:ℚ), (2:ℚ))], 3, 4⟩ : FireflyState ℚ ℚ ℚ).fireflies = [((1:ℚ), (2:ℚ))] ∧
    FireflyAlg.update qFirefly ⟨[((1:ℚ), (2:ℚ))], 3, 4⟩ =
      (⟨[((1:ℚ), (2:ℚ))], 3, 4⟩ : FireflyState ℚ ℚ ℚ) :=
  ⟨rfl, firefly_singleton_noop qFirefly qFirefly_lawful _ ((1:ℚ), (2:ℚ)) rfl⟩

/-- Witness for C10 at a concrete 3-candidate population whose maximal
entry (index 2, cached evaluation 7) is left exactly in place by the
sweep. -/
theorem firefly_max_entry_unchanged_witness :
    (∀ q ∈ [((0:ℚ), (0:ℚ)), ((1:ℚ), (5:ℚ)), ((2:ℚ), (7:ℚ))],
      qFirefly.gtE q.2 ((2:ℚ), (7:ℚ)).2 = false) ∧
    (FireflyAlg.update qFirefly
        ⟨[((0:ℚ), (0:ℚ)), ((1:ℚ), (5:ℚ)), ((2:ℚ), (7:ℚ))], 1, 1⟩).fireflies[2]? =
      some ((2:ℚ), (7:ℚ)) :=
  ⟨by decide, firefly_max_entry_unchanged qFirefly
    ⟨[((0:ℚ), (0:ℚ)), ((1:ℚ), (5:ℚ)), ((2:ℚ), (7:ℚ))], 1, 1⟩ 2
    ((2:ℚ), (7:ℚ)) rfl (by decide)⟩

/-! Helper lemmas about Rust's `Iterator::max` reduction. -/

/-- Left-to-right max-reduction with a comparator consistent with ordering
by evaluation: the result is either the initial accumulator (with every
list element strictly smaller) or some list element `m` that dominates the
accumulator, weakly dominates everything before it and strictly dominates
everything after it. -/
lemma foldl_rustMax_spec {T Eval : Type} [LinearOrder Eval] (ev : T → Eval)
    (cmp : T → T → Ordering) (hcmp : ∀ a b, cmp a b = compare (ev a) (ev b))
    (l : List T) (a : T) :
    (l.foldl (fun x b => if cmp x b = Ordering.gt then x else b) a = a ∧
      ∀ b ∈ l, ev b < ev a) ∨
    (∃ l1 m l2, l = l1 ++ m :: l2 ∧
      l.foldl (fun x b => if cmp x b = Ordering.gt then x else b) a = m ∧
      ev a ≤ ev m ∧ (∀ b ∈ l1, ev b ≤ ev m) ∧ (∀ b ∈ l2, ev b < ev m)) := by
  induction l generalizing a with
  | nil => exact Or.inl ⟨rfl, by simp⟩
  | cons x xs ih =>
    rw [List.foldl_cons]
    by_cases hx : cmp a x = Ordering.gt
    · have hlt : ev x < ev a := by
        rw [hcmp] at hx
        exact compare_gt_iff_gt.mp hx
      rw [if_pos hx]
      rcases ih a with ⟨heq, hall⟩ | ⟨l1, m, l2, hdec, heq, hle, h1, h2⟩
      · exact Or.inl ⟨heq, by
          intro b hb
          rcases List.mem_cons.mp hb with hb | hb
          · exact hb ▸ hlt
          · exact hall b hb⟩
      · refine Or.inr ⟨x :: l1, m, l2, by rw [hdec]; rfl, heq, hle, ?_, h2⟩
        intro b hb
        rcases List.mem_cons.mp hb with hb | hb
        · exact hb ▸ le_of_lt (lt_of_lt_of_le hlt hle)
        · exact h1 b hb
    · have hle : ev a ≤ ev x := by
        rw [hcmp] at hx
        rcases lt_trichotomy (ev a) (ev x) with h | h | h
        · exact le_of_lt h
        · exact le_of_eq h
        · exact absurd (compare_gt_iff_gt.mpr h) hx
      rw [if_neg hx]
      rcases ih x with ⟨heq, hall⟩ | ⟨l1, m, l2, hdec, heq, hlex, h1, h2⟩
      · exact Or.inr ⟨[], x, xs, rfl, heq, hle, by simp, hall⟩
      · refine Or.inr ⟨x :: l1, m, l2, by rw [hdec]; rfl, heq, le_trans hle hlex, ?_, h2⟩
        intro b hb
        rcases List.mem_cons.mp hb with hb | hb
        · exact hb ▸ hlex
        · exact h1 b hb

/-- Characterization of `rustMax` (Rust's `iter().max()`) under a
comparator consistent with ordering by evaluation: the selected element is
maximal in evaluation and everything strictly after it in the list has a
strictly smaller evaluation (so among equal maxima the last one wins). -/
lemma rustMax_spec {T Eval : Type} [LinearOrder Eval] (ev : T → Eval)
    (cmp : T → T → Ordering) (hcmp : ∀ a b, cmp a b = compare (ev a) (ev b))
    (ps : List T) (m : T) (h : rustMax cmp ps = some m) :
    (∀ p ∈ ps, ev p ≤ ev m) ∧
    ∃ l1 l2, ps = l1 ++ m :: l2 ∧ ∀ p ∈ l2, ev p < ev m := by
  cases ps with
  | nil => cases h
  | cons x xs =>
    have hm : xs.foldl (fun a b => if cmp a b = Ordering.gt then a else b) x = m := by
      have := h
      rw [rustMax] at this
      exact (Option.some.injEq _ _).mp this
    rcases foldl_rustMax_spec ev cmp hcmp xs x with ⟨heq, hall⟩ | ⟨l1, mm, l2, hdec, heq, hle, h1, h2⟩
    · rw [heq] at hm
      subst hm
      refine ⟨?_, [], xs, rfl, hall⟩
      intro p hp
      rcases List.mem_cons.mp hp with hp | hp
      · exact hp ▸ le_refl _
      · exact le_of_lt (hall p hp)
    · rw [heq] at hm
      subst hm
      refine ⟨?_, x :: l1, l2, by rw [hdec]; rfl, h2⟩
      intro p hp
      rcases List.mem_cons.mp hp with hp | hp
      · exact hp ▸ hle
      · rw [hdec] at hp
        rcases List.mem_append.mp hp with hp | hp
        · exact h1 p hp
        · rcases List.mem_cons.mp hp with hp | hp
          · exact hp ▸ le_refl _
          · exact le_of_lt (h2 p hp)

/-- C5: whenever the PSO engine computes its global best (`calc_best`, used
both at construction and at the end of every step), the selected candidate
is maximal under the candidate total order — hence, with that order
consistent with ordering by evaluation, maximal in evaluation — and every
candidate strictly after it in scan order evaluates strictly smaller, so
among candidates comparing equal the later-index one is selected,
deterministically. -/
theorem pso_calc_best_last_max {T Pos Eval F : Type} [LinearOrder Eval]
    (ops : PSOOps T Pos Eval F) (hl : PSOLawful ops)
    (ps : List T) (hps : ps ≠ []) :
    ∃ m l1 l2, calc_best ops ps = some (m, ops.eval m) ∧ ps = l1 ++ m :: l2 ∧
      (∀ p ∈ ps, ops.eval p ≤ ops.eval m) ∧ (∀ p ∈ l2, ops.eval p < ops.eval m) := by
  cases ps with
  | nil => exact absurd rfl hps
  | cons x xs =>
    obtain ⟨m, hm⟩ : ∃ m, rustMax ops.cmp (x :: xs) = some m := ⟨_, rfl⟩
    obtain ⟨hmax, l1, l2, hdec, hafter⟩ := rustMax_spec ops.eval ops.cmp hl.cmp_eval _ m hm
    exact ⟨m, l1, l2, by rw [calc_best, hm, Option.map_some'], hdec, hmax, hafter⟩

/-- Destructed form of a successful `PSO::update`: the new population is
the result of the three passes, the scan for the best candidate succeeded,
and either the cached global best was strictly improved (step reports
`false`, i.e. not stagnated) or it was left unchanged (step reports
`true`). -/
lemma PSO.update_cases {T Pos Eval F : Type} (ops : PSOOps T Pos Eval F)
    (s : PSOState T Eval F) (r : ℕ → F) (s' : PSOState T Eval F) (stag : Bool)
    (h : PSO.update ops s r = some (s', stag)) :
    ∃ m, rustMax ops.cmp
        (pass3 ops (pass2 ops s.inetia s.c_local s.c_global (ops.pos s.best.1) r 0
          (pass1 ops s.particles))) = some m ∧
      ((ops.gtE (ops.eval m) s.best.2 = true ∧ stag = false ∧
        s' = { s with
          particles := pass3 ops (pass2 ops s.inetia s.c_local s.c_global
            (ops.pos s.best.1) r 0 (pass1 ops s.particles)),
          best := (m, ops.eval m) }) ∨
       (ops.gtE (ops.eval m) s.best.2 = false ∧ stag = true ∧
        s' = { s with
          particles := pass3 ops (pass2 ops s.inetia s.c_local s.c_global
            (ops.pos s.best.1) r 0 (pass1 ops s.particles)) })) := by
  rw [PSO.update] at h
  rcases Option.map_eq_some'.mp h with ⟨best, hcb, hf⟩
  rcases Option.map_eq_some'.mp hcb with ⟨m, hrm, hbm⟩
  subst hbm
  refine ⟨m, hrm, ?_⟩
  by_cases hg : ops.gtE (m, ops.eval m).2 s.best.2 = true
  · rw [if_pos hg] at hf
    exact Or.inl ⟨hg, (Prod.mk.injEq _ _ _ _).mp hf |>.2.symm,
      ((Prod.mk.injEq _ _ _ _).mp hf |>.1).symm⟩
  · rw [if_neg hg] at hf
    exact Or.inr ⟨Bool.not_eq_true _ ▸ hg, (Prod.mk.injEq _ _ _ _).mp hf |>.2.symm,
      ((Prod.mk.injEq _ _ _ _).mp hf |>.1).symm⟩

/-- The cached global best's evaluation never decreases across one
successful `PSO::update` step. -/
lemma update_best_le {T Pos Eval F : Type} [LinearOrder Eval]
    (ops : PSOOps T Pos Eval F) (hgt : ∀ a b, ops.gtE a b = true ↔ b < a)
    (s : PSOState T Eval F) (r : ℕ → F) (s' : PSOState T Eval F) (stag : Bool)
    (h : PSO.update ops s r = some (s', stag)) : s.best.2 ≤ s'.best.2 := by
  rcases PSO.update_cases ops s r s' stag h with ⟨m, _, ⟨hg, _, hs⟩ | ⟨_, _, hs⟩⟩
  · rw [hs]
    exact le_of_lt ((hgt _ _).mp hg)
  · rw [hs]

/-- C3: across any sequence of successful `update()` calls, the evaluation
component of the cached global best (returned by `best()`) is
non-decreasing call-over-call, for the engine's entire lifetime. -/
theorem pso_best_monotone {T Pos Eval F : Type} [LinearOrder Eval]
    (ops : PSOOps T Pos Eval F) (hl : PSOLawful ops)
    (σ : ℕ → PSOState T Eval F) (R : ℕ → ℕ → F)
    (hstep : ∀ k, ∃ b, PSO.update ops (σ k) (R k) = some (σ (k + 1), b)) :
    Monotone fun k => ((σ k).best).2 := by
  apply monotone_nat_of_le_succ
  intro k
  obtain ⟨b, hb⟩ := hstep k
  exact update_best_le ops hl.gt_iff (σ k) (R k) (σ (k + 1)) b hb

/-- C2: a successful `update()` step returns `true` (stagnated) exactly
when no post-pass candidate's evaluation strictly exceeds the pre-step
cached global best's evaluation — i.e. the population-wide maximal
evaluation after the three passes does not strictly exceed it (the
candidate total order being consistent with ordering by evaluation is part
of `PSOLawful`).  When it returns `false` the cached global best has been
replaced by the new maximal candidate; when it returns `true` the cached
global best is unchanged. -/
theorem pso_update_stagnation {T Pos Eval F : Type} [LinearOrder Eval]
    (ops : PSOOps T Pos Eval F) (hl : PSOLawful ops)
    (s : PSOState T Eval F) (r : ℕ → F) (s' : PSOState T Eval F) (stag : Bool)
    (h : PSO.update ops s r = some (s', stag)) :
    (stag = true ↔ ∀ p ∈ s'.particles, ops.eval p ≤ s.best.2) ∧
    (stag = true → s'.best = s.best) ∧
    (stag = false → ∃ m, s'.best = (m, ops.eval m) ∧ m ∈ s'.particles ∧
      ∀ p ∈ s'.particles, ops.eval p ≤ ops.eval m) := by
  rcases PSO.update_cases ops s r s' stag h with ⟨m, hrm, hcase⟩
  obtain ⟨hmax, l1, l2, hdec, _⟩ := rustMax_spec ops.eval ops.cmp hl.cmp_eval _ m hrm
  have hmem : m ∈ pass3 ops (pass2 ops s.inetia s.c_local s.c_global
      (ops.pos s.best.1) r 0 (pass1 ops s.particles)) := by
    rw [hdec]
    exact List.mem_append.mpr (Or.inr (List.mem_cons_self _ _))
  rcases hcase with ⟨hg, hstag, hs⟩ | ⟨hg, hstag, hs⟩
  · subst hstag
    subst hs
    refine ⟨?_, ?_, ?_⟩
    · exact iff_of_false (by simp)
        (fun hall => absurd ((hl.gt_iff _ _).mp hg) (not_lt.mpr (hall m hmem)))
    · intro hft
      cases hft
    · intro _
      exact ⟨m, rfl, hmem, hmax⟩
  · subst hstag
    subst hs
    have hle : ops.eval m ≤ s.best.2 := by
      by_contra hc
      rw [not_le] at hc
      rw [(hl.gt_iff (ops.eval m) s.best.2).mpr hc] at hg
      cases hg
    refine ⟨?_, ?_, ?_⟩
    · exact iff_of_true rfl (fun p hp => le_trans (hmax p hp) hle)
    · intro _
      rfl
    · intro hft
      cases hft

/-- The concrete scalar PSO instance is lawful for every objective `f`. -/
lemma scalarPSO_lawful (F : Type) [LinearOrderedField F] (f : F → F) :
    PSOLawful (scalarPSO F f) := by
  refine ⟨fun t p => rfl, fun t v => rfl, fun t b => rfl, fun t v => rfl, fun t p => rfl,
    fun t p => rfl, fun t v => rfl, fun t b => rfl, ?_, ?_, fun a b => rfl⟩
  · intro t u h
    exact congrArg f h
  · intro a b
    simp [scalarPSO]

/-- Witness for C2 at a concrete 1-particle state that stagnates: the
step returns `true`, every post-pass evaluation is at most the pre-step
best evaluation, and the cached global best is unchanged. -/
theorem pso_update_stagnation_witness :
    PSO.update (scalarPSO ℚ fun x => x)
        ⟨[⟨0, 0, (0, 0)⟩], 1, 0, 0, (⟨0, 0, (0, 0)⟩, 0)⟩ (fun _ => 0) =
      some (⟨[⟨0, 0, (0, 0)⟩], 1, 0, 0, (⟨0, 0, (0, 0)⟩, 0)⟩, true) ∧
    ((true = true ↔ ∀ p ∈ (⟨[⟨0, 0, (0, 0)⟩], 1, 0, 0, (⟨0, 0, (0, 0)⟩, 0)⟩ :
        PSOState (SParticle ℚ) ℚ ℚ).particles,
      (scalarPSO ℚ fun x => x).eval p ≤
        ((⟨[⟨0, 0, (0, 0)⟩], 1, 0, 0, (⟨0, 0, (0, 0)⟩, 0)⟩ :
          PSOState (SParticle ℚ) ℚ ℚ).best).2) ∧
     (true = true →
      ((⟨[⟨0, 0, (0, 0)⟩], 1, 0, 0, (⟨0, 0, (0, 0)⟩, 0)⟩ :
        PSOState (SParticle ℚ) ℚ ℚ).best) =
      ((⟨[⟨0, 0, (0, 0)⟩], 1, 0, 0, (⟨0, 0, (0, 0)⟩, 0)⟩ :
        PSOState (SParticle ℚ) ℚ ℚ).best)) ∧
     (true = false → ∃ m,
      ((⟨[⟨0, 0, (0, 0)⟩], 1, 0, 0, (⟨0, 0, (0, 0)⟩, 0)⟩ :
        PSOState (SParticle ℚ) ℚ ℚ).best) = (m, (scalarPSO ℚ fun x => x).eval m) ∧
      m ∈ (⟨[⟨0, 0, (0, 0)⟩], 1, 0, 0, (⟨0, 0, (0, 0)⟩, 0)⟩ :
        PSOState (SParticle ℚ) ℚ ℚ).particles ∧
      ∀ p ∈ (⟨[⟨0, 0, (0, 0)⟩], 1, 0, 0, (⟨0, 0, (0, 0)⟩, 0)⟩ :
        PSOState (SParticle ℚ) ℚ ℚ).particles,
        (scalarPSO ℚ fun x => x).eval p ≤ (scalarPSO ℚ fun x => x).eval m)) :=
  ⟨by norm_num [PSO.update, pass1, pass2, pass3, calc_best, rustMax, scalarPSO],
   pso_update_stagnation (scalarPSO ℚ fun x => x) (scalarPSO_lawful ℚ fun x => x)
     ⟨[⟨0, 0, (0, 0)⟩], 1, 0, 0, (⟨0, 0, (0, 0)⟩, 0)⟩ (fun _ => 0)
     ⟨[⟨0, 0, (0, 0)⟩], 1, 0, 0, (⟨0, 0, (0, 0)⟩, 0)⟩ true
     (by norm_num [PSO.update, pass1, pass2, pass3, calc_best, rustMax, scalarPSO])⟩

/-- Witness for C3 on the constant sequence of states given by repeatedly
stepping a concrete fixed-point 1-particle state. -/
theorem pso_best_monotone_witness :
    (∀ k : ℕ, ∃ b, PSO.update (scalarPSO ℚ fun x => x)
        ((fun _ : ℕ => (⟨[⟨0, 0, (0, 0)⟩], 1, 0, 0, (⟨0, 0, (0, 0)⟩, 0)⟩ :
          PSOState (SParticle ℚ) ℚ ℚ)) k) ((fun _ _ => (0 : ℚ)) k) =
      some ((fun _ : ℕ => (⟨[⟨0, 0, (0, 0)⟩], 1, 0, 0, (⟨0, 0, (0, 0)⟩, 0)⟩ :
          PSOState (SParticle ℚ) ℚ ℚ)) (k + 1), b)) ∧
    Monotone (fun k : ℕ =>
      (((fun _ : ℕ => (⟨[⟨0, 0, (0, 0)⟩], 1, 0, 0, (⟨0, 0, (0, 0)⟩, 0)⟩ :
          PSOState (SParticle ℚ) ℚ ℚ)) k).best).2) :=
  ⟨fun _ => ⟨true,
    by norm_num [PSO.update, pass1, pass2, pass3, calc_best, rustMax, scalarPSO]⟩,
   pso_best_monotone (scalarPSO ℚ fun x => x) (scalarPSO_lawful ℚ fun x => x)
     (fun _ => ⟨[⟨0, 0, (0, 0)⟩], 1, 0, 0, (⟨0, 0, (0, 0)⟩, 0)⟩) (fun _ _ => 0)
     (fun _ => ⟨true,
      by norm_num [PSO.update, pass1, pass2, pass3, calc_best, rustMax, scalarPSO]⟩)⟩

/-- Witness for C5 at a concrete 2-particle population in which both
candidates compare equal (constant objective): the selected global best is
the later-index one. -/
theorem pso_calc_best_last_max_witness :
    PSOLawful (scalarPSO ℚ fun _ => 0) ∧
    ([(⟨1, 0, (1, 0)⟩ : SParticle ℚ), ⟨2, 0, (2, 0)⟩] ≠ []) ∧
    ∃ m l1 l2, calc_best (scalarPSO ℚ fun _ => 0)
        [(⟨1, 0, (1, 0)⟩ : SParticle ℚ), ⟨2, 0, (2, 0)⟩] =
        some (m, (scalarPSO ℚ fun _ => 0).eval m) ∧
      [(⟨1, 0, (1, 0)⟩ : SParticle ℚ), ⟨2, 0, (2, 0)⟩] = l1 ++ m :: l2 ∧
      (∀ p ∈ [(⟨1, 0, (1, 0)⟩ : SParticle ℚ), ⟨2, 0, (2, 0)⟩],
        (scalarPSO ℚ fun _ => 0).eval p ≤ (scalarPSO ℚ fun _ => 0).eval m) ∧
      (∀ p ∈ l2, (scalarPSO ℚ fun _ => 0).eval p < (scalarPSO ℚ fun _ => 0).eval m) :=
  ⟨scalarPSO_lawful ℚ fun _ => 0, by simp,
   pso_calc_best_last_max (scalarPSO ℚ fun _ => 0) (scalarPSO_lawful ℚ fun _ => 0)
     [⟨1, 0, (1, 0)⟩, ⟨2, 0, (2, 0)⟩] (by simp)⟩

/-! Index-wise characterization of the three PSO passes. -/

lemma pass1_getElem {T Pos Eval F : Type} (ops : PSOOps T Pos Eval F)
    (ps : List T) (i : ℕ) :
    (pass1 ops ps)[i]? = ps[i]?.map fun p => ops.setPos p (ops.addP (ops.pos p) (ops.vel p)) := by
  simp [pass1, List.getElem?_map]

lemma pass2_getElem {T Pos Eval F : Type} (ops : PSOOps T Pos Eval F)
    (w cl cg : F) (gpos : Pos) (r : ℕ → F) :
    ∀ (ps : List T) (k i : ℕ),
    (pass2 ops w cl cg gpos r k ps)[i]? = ps[i]?.map fun p =>
      ops.setVel p (ops.addP (ops.addP (ops.mulP (ops.vel p) w)
          (ops.mulP (ops.mulP (ops.subP (ops.pbest p).1 (ops.pos p)) cl) (r (2 * (k + i)))))
        (ops.mulP (ops.mulP (ops.subP gpos (ops.pos p)) cg) (r (2 * (k + i) + 1)))) := by
  intro ps
  induction ps with
  | nil =>
    intro k i
    simp [pass2]
  | cons p ps ih =>
    intro k i
    cases i with
    | zero => simp [pass2]
    | succ j =>
      rw [pass2]
      simp only [List.getElem?_cons_succ]
      rw [ih (k + 1) j]
      have harith : k + 1 + j = k + (j + 1) := by omega
      rw [harith]

lemma pass3_getElem {T Pos Eval F : Type} (ops : PSOOps T Pos Eval F)
    (ps : List T) (i : ℕ) :
    (pass3 ops ps)[i]? = ps[i]?.map fun p =>
      if ops.gtE (ops.eval p) (ops.pbest p).2 then ops.setPbest p (ops.pos p, ops.eval p)
      else p := by
  simp [pass3, List.getElem?_map]

/-- Index-wise effect of a successful `PSO::update` on the population: the
particle at index `i` is transformed exactly by the per-candidate reference
step `specStep`, using the pre-step velocity and personal best, the pre-step
cached global best position, and its own pair of fresh draws. -/
lemma update_getElem_specStep {T Pos Eval F : Type} [LinearOrder Eval]
    (ops : PSOOps T Pos Eval F) (hl : PSOLawful ops)
    (s : PSOState T Eval F) (r : ℕ → F) (s' : PSOState T Eval F) (stag : Bool)
    (h : PSO.update ops s r = some (s', stag)) (i : ℕ) (p : T)
    (hp : s.particles[i]? = some p) :
    s'.particles[i]? = some (specStep ops s.inetia s.c_local s.c_global
      (ops.pos s.best.1) (r (2 * i)) (r (2 * i + 1)) p) := by
  have hparts : s'.particles = pass3 ops (pass2 ops s.inetia s.c_local s.c_global
      (ops.pos s.best.1) r 0 (pass1 ops s.particles)) := by
    rcases PSO.update_cases ops s r s' stag h with ⟨m, _, ⟨_, _, hs⟩ | ⟨_, _, hs⟩⟩
    · rw [hs]
    · rw [hs]
  rw [hparts, pass3_getElem, pass2_getElem, pass1_getElem, hp]
  simp only [Option.map_some', Nat.zero_add]
  congr 1
  rw [specStep]
  simp only [hl.pos_set, hl.vel_setPos, hl.pbest_setPos, hl.pos_setVel, hl.pbest_setVel]

/-- C7: one successful `PSO::update` step acts on every particle exactly as
the three-pass reference definition `specStep` (modelled from the spec's
words): pass 1 adds the velocity left over from the previous step to the
position; pass 2 recombines the velocity from the pass-1-updated position,
the pre-step personal best, the global best snapshot from the end of the
previous step (never a value computed during the current step), and the
particle's own two fresh draws (`r (2*i)`, `r (2*i+1)`); pass 3 replaces
the personal best exactly on strict improvement.  Each pass is a whole-
population map completed before the next pass reads its output. -/
theorem pso_update_three_pass {T Pos Eval F : Type} [LinearOrder Eval]
    (ops : PSOOps T Pos Eval F) (hl : PSOLawful ops)
    (s : PSOState T Eval F) (r : ℕ → F) (s' : PSOState T Eval F) (stag : Bool)
    (h : PSO.update ops s r = some (s', stag)) (i : ℕ) (p : T)
    (hp : s.particles[i]? = some p) :
    s'.particles[i]? = some (specStep ops s.inetia s.c_local s.c_global
      (ops.pos s.best.1) (r (2 * i)) (r (2 * i + 1)) p) :=
  update_getElem_specStep ops hl s r s' stag h i p hp

/-- Witness for C7 at the concrete fixed-point 1-particle state. -/
theorem pso_update_three_pass_witness :
    PSO.update (scalarPSO ℚ fun x => x)
        ⟨[⟨0, 0, (0, 0)⟩], 1, 0, 0, (⟨0, 0, (0, 0)⟩, 0)⟩ (fun _ => 0) =
      some (⟨[⟨0, 0, (0, 0)⟩], 1, 0, 0, (⟨0, 0, (0, 0)⟩, 0)⟩, true) ∧
    ((⟨[⟨0, 0, (0, 0)⟩], 1, 0, 0, (⟨0, 0, (0, 0)⟩, 0)⟩ :
        PSOState (SParticle ℚ) ℚ ℚ).particles)[0]? = some ⟨0, 0, (0, 0)⟩ ∧
    ((⟨[⟨0, 0, (0, 0)⟩], 1, 0, 0, (⟨0, 0, (0, 0)⟩, 0)⟩ :
        PSOState (SParticle ℚ) ℚ ℚ).particles)[0]? =
      some (specStep (scalarPSO ℚ fun x => x) 1 0 0
        ((scalarPSO ℚ fun x => x).pos (⟨0, 0, (0, 0)⟩ : SParticle ℚ)) 0 0
        (⟨0, 0, (0, 0)⟩ : SParticle ℚ)) :=
  ⟨by norm_num [PSO.update, pass1, pass2, pass3, calc_best, rustMax, scalarPSO], rfl,
   pso_update_three_pass (scalarPSO ℚ fun x => x) (scalarPSO_lawful ℚ fun x => x)
     ⟨[⟨0, 0, (0, 0)⟩], 1, 0, 0, (⟨0, 0, (0, 0)⟩, 0)⟩ (fun _ => 0)
     ⟨[⟨0, 0, (0, 0)⟩], 1, 0, 0, (⟨0, 0, (0, 0)⟩, 0)⟩ true
     (by norm_num [PSO.update, pass1, pass2, pass3, calc_best, rustMax, scalarPSO]) 0
     ⟨0, 0, (0, 0)⟩ rfl⟩

/-- Abstract form of pass 3 applied to an already-moved particle `p2`
whose position is `q` and whose personal best is still `p`'s: the result's
position is `q` and its personal best is replaced by `(q, new evaluation)`
exactly when the new evaluation strictly exceeds the stored one. -/
lemma stepIf_pos_pbest {T Pos Eval F : Type} [LinearOrder Eval]
    (ops : PSOOps T Pos Eval F) (hl : PSOLawful ops) (p p2 res : T) (q : Pos)
    (hpos : ops.pos p2 = q) (hpb : ops.pbest p2 = ops.pbest p)
    (hres : res = if ops.gtE (ops.eval p2) (ops.pbest p).2
      then ops.setPbest p2 (q, ops.eval p2) else p2) :
    ops.pos res = q ∧
    ops.pbest res =
      (if (ops.pbest p).2 < ops.eval res then (ops.pos res, ops.eval res) else ops.pbest p) := by
  cases hb : ops.gtE (ops.eval p2) (ops.pbest p).2 with
  | false =>
    rw [hb] at hres
    simp only [Bool.false_eq_true, if_false] at hres
    rw [hres]
    have hcond : ¬ ((ops.pbest p).2 < ops.eval p2) := by
      intro hc
      rw [(hl.gt_iff _ _).mpr hc] at hb
      cases hb
    exact ⟨hpos, by rw [hpb, if_neg hcond]⟩
  | true =>
    rw [hb] at hres
    simp only [if_true] at hres
    rw [hres]
    have hposr : ops.pos (ops.setPbest p2 (q, ops.eval p2)) = q := by
      rw [hl.pos_setPb, hpos]
    have hevalr : ops.eval (ops.setPbest p2 (q, ops.eval p2)) = ops.eval p2 :=
      hl.eval_pos _ _ (by rw [hl.pos_setPb])
    refine ⟨hposr, ?_⟩
    rw [hl.pbest_set, hevalr, if_pos ((hl.gt_iff _ _).mp hb), hposr]

/-- Effect of the reference per-candidate step on the read-back fields: the
new position is the old position plus the old velocity, and the personal
best is replaced by the new position and its evaluation exactly when that
evaluation strictly exceeds the stored one. -/
lemma specStep_pos_pbest {T Pos Eval F : Type} [LinearOrder Eval]
    (ops : PSOOps T Pos Eval F) (hl : PSOLawful ops)
    (w cl cg : F) (gpos : Pos) (r1 r2 : F) (p : T) :
    ops.pos (specStep ops w cl cg gpos r1 r2 p) = ops.addP (ops.pos p) (ops.vel p) ∧
    ops.pbest (specStep ops w cl cg gpos r1 r2 p) =
      (if (ops.pbest p).2 < ops.eval (specStep ops w cl cg gpos r1 r2 p)
       then (ops.pos (specStep ops w cl cg gpos r1 r2 p),
         ops.eval (specStep ops w cl cg gpos r1 r2 p))
       else ops.pbest p) := by
  apply stepIf_pos_pbest ops hl p
    (ops.setVel (ops.setPos p (ops.addP (ops.pos p) (ops.vel p)))
      (ops.addP (ops.addP (ops.mulP (ops.vel p) w)
        (ops.mulP (ops.mulP (ops.subP (ops.pbest p).1
          (ops.addP (ops.pos p) (ops.vel p))) cl) r1))
      (ops.mulP (ops.mulP (ops.subP gpos (ops.addP (ops.pos p) (ops.vel p))) cg) r2)))
  · rw [hl.pos_setVel, hl.pos_set]
  · rw [hl.pbest_setVel, hl.pbest_setPos]
  · rw [specStep]

/-- Along a trace of successful iterated updates, the particle at a fixed
index `i` evolves exactly by the reference per-candidate step, with the
parameters and global best snapshot of the pre-step state. -/
lemma iteratePSO_particle_step {T Pos Eval F : Type} [LinearOrder Eval]
    (ops : PSOOps T Pos Eval F) (hl : PSOLawful ops)
    (R : ℕ → ℕ → F) (s0 : PSOState T Eval F)
    (σ : ℕ → PSOState T Eval F) (hσ : ∀ j, iteratePSO ops R s0 j = some (σ j))
    (i : ℕ) (π : ℕ → T) (hπ : ∀ j, (σ j).particles[i]? = some (π j)) (j : ℕ) :
    π (j + 1) = specStep ops ((σ j).inetia) ((σ j).c_local) ((σ j).c_global)
      (ops.pos ((σ j).best).1) (R j (2 * i)) (R j (2 * i + 1)) (π j) := by
  have h1 := hσ (j + 1)
  rw [iteratePSO, hσ j, Option.some_bind] at h1
  rcases Option.map_eq_some'.mp h1 with ⟨a, hupd, hfst⟩
  obtain ⟨s', stag⟩ := a
  have hs' : s' = σ (j + 1) := hfst
  rw [hs'] at hupd
  have hel := update_getElem_specStep ops hl (σ j) (R j) (σ (j + 1)) stag hupd i (π j) (hπ j)
  rw [hπ (j + 1)] at hel
  exact (Option.some.injEq _ _).mp hel

/-- C8: after every step along a trace of successful `update()` calls on
an initial state whose particles have `personal_best` initialized to their
own position and evaluation (as `new_random()` must), each particle's
`personal_best.1` is the highest evaluation that particle has ever
attained at any point of its own history (initial state and every
post-step state), `personal_best.0` is a position from that history at
which that evaluation occurred, and each pass-3 transition replaces
`personal_best` exactly when the new position's evaluation strictly
exceeds the stored one and leaves it unchanged otherwise. -/
theorem pso_personal_best_history {T Pos Eval F : Type} [LinearOrder Eval]
    (ops : PSOOps T Pos Eval F) (hl : PSOLawful ops)
    (R : ℕ → ℕ → F) (s0 : PSOState T Eval F)
    (hinit : ∀ p ∈ s0.particles, ops.pbest p = (ops.pos p, ops.eval p))
    (σ : ℕ → PSOState T Eval F) (hσ : ∀ j, iteratePSO ops R s0 j = some (σ j))
    (i : ℕ) (π : ℕ → T) (hπ : ∀ j, (σ j).particles[i]? = some (π j)) (k : ℕ) :
    (∀ j ≤ k, ops.eval (π j) ≤ (ops.pbest (π k)).2) ∧
    (∃ j ≤ k, (ops.pbest (π k)).1 = ops.pos (π j) ∧ (ops.pbest (π k)).2 = ops.eval (π j)) ∧
    (∀ j < k, ops.pbest (π (j + 1)) =
      (if (ops.pbest (π j)).2 < ops.eval (π (j + 1))
       then (ops.pos (π (j + 1)), ops.eval (π (j + 1)))
       else ops.pbest (π j))) := by
  have hm : ∀ j, ops.pbest (π (j + 1)) =
      (if (ops.pbest (π j)).2 < ops.eval (π (j + 1))
       then (ops.pos (π (j + 1)), ops.eval (π (j + 1)))
       else ops.pbest (π j)) := by
    intro j
    have hst := iteratePSO_particle_step ops hl R s0 σ hσ i π hπ j
    have hspec := (specStep_pos_pbest ops hl ((σ j).inetia) ((σ j).c_local) ((σ j).c_global)
      (ops.pos ((σ j).best).1) (R j (2 * i)) (R j (2 * i + 1)) (π j)).2
    rw [← hst] at hspec
    exact hspec
  induction k with
  | zero =>
    have h00 := hσ 0
    rw [iteratePSO] at h00
    have h0 : σ 0 = s0 := ((Option.some.injEq _ _).mp h00).symm
    have hmem : π 0 ∈ s0.particles := by
      rw [← h0]
      rcases List.getElem?_eq_some.mp (hπ 0) with ⟨hlen, hget⟩
      exact hget ▸ List.getElem_mem hlen
    have hpb := hinit (π 0) hmem
    refine ⟨?_, ⟨0, le_refl 0, by rw [hpb], by rw [hpb]⟩, ?_⟩
    · intro j hj
      rw [Nat.le_zero.mp hj, hpb]
    · intro j hj
      exact absurd hj (Nat.not_lt_zero j)
  | succ k ih =>
    obtain ⟨ihA, ⟨j0, hj0, ihB1, ihB2⟩, _⟩ := ih
    refine ⟨?_, ?_, ?_⟩
    · intro j hj
      by_cases hcond : (ops.pbest (π k)).2 < ops.eval (π (k + 1))
      · rw [hm k, if_pos hcond]
        rcases Nat.le_succ_iff.mp hj with hj' | hj'
        · exact le_of_lt (lt_of_le_of_lt (ihA j hj') hcond)
        · rw [hj']
      · rw [hm k, if_neg hcond]
        rcases Nat.le_succ_iff.mp hj with hj' | hj'
        · exact ihA j hj'
        · rw [hj']
          exact not_lt.mp hcond
    · by_cases hcond : (ops.pbest (π k)).2 < ops.eval (π (k + 1))
      · exact ⟨k + 1, le_refl _, by rw [hm k, if_pos hcond], by rw [hm k, if_pos hcond]⟩
      · exact ⟨j0, le_trans hj0 (Nat.le_succ k), by rw [hm k, if_neg hcond]; exact ihB1,
          by rw [hm k, if_neg hcond]; exact ihB2⟩
    · intro j hj
      rcases Nat.lt_succ_iff_lt_or_eq.mp hj with hj' | hj'
      · exact hm j
      · rw [hj']
        exact hm k

/-- Witness for C8 on the constant trace of the concrete fixed-point
1-particle state, at `k = 1`. -/
theorem pso_personal_best_history_witness :
    (∀ p ∈ (⟨[⟨0, 0, (0, 0)⟩], 1, 0, 0, (⟨0, 0, (0, 0)⟩, 0)⟩ :
        PSOState (SParticle ℚ) ℚ ℚ).particles,
      (scalarPSO ℚ fun x => x).pbest p =
        ((scalarPSO ℚ fun x => x).pos p, (scalarPSO ℚ fun x => x).eval p)) ∧
    (∀ j : ℕ, iteratePSO (scalarPSO ℚ fun x => x) (fun _ _ => 0)
        ⟨[⟨0, 0, (0, 0)⟩], 1, 0, 0, (⟨0, 0, (0, 0)⟩, 0)⟩ j =
      some ⟨[⟨0, 0, (0, 0)⟩], 1, 0, 0, (⟨0, 0, (0, 0)⟩, 0)⟩) ∧
    ((∀ j ≤ 1, (scalarPSO ℚ fun x => x).eval (⟨0, 0, (0, 0)⟩ : SParticle ℚ) ≤
        ((scalarPSO ℚ fun x => x).pbest (⟨0, 0, (0, 0)⟩ : SParticle ℚ)).2) ∧
     (∃ j ≤ 1, ((scalarPSO ℚ fun x => x).pbest (⟨0, 0, (0, 0)⟩ : SParticle ℚ)).1 =
        (scalarPSO ℚ fun x => x).pos (⟨0, 0, (0, 0)⟩ : SParticle ℚ) ∧
        ((scalarPSO ℚ fun x => x).pbest (⟨0, 0, (0, 0)⟩ : SParticle ℚ)).2 =
        (scalarPSO ℚ fun x => x).eval (⟨0, 0, (0, 0)⟩ : SParticle ℚ)) ∧
     (∀ j < 1, (scalarPSO ℚ fun x => x).pbest (⟨0, 0, (0, 0)⟩ : SParticle ℚ) =
        (if ((scalarPSO ℚ fun x => x).pbest (⟨0, 0, (0, 0)⟩ : SParticle ℚ)).2 <
            (scalarPSO ℚ fun x => x).eval (⟨0, 0, (0, 0)⟩ : SParticle ℚ)
         then ((scalarPSO ℚ fun x => x).pos (⟨0, 0, (0, 0)⟩ : SParticle ℚ),
           (scalarPSO ℚ fun x => x).eval (⟨0, 0, (0, 0)⟩ : SParticle ℚ))
         else (scalarPSO ℚ fun x => x).pbest (⟨0, 0, (0, 0)⟩ : SParticle ℚ)))) := by
  have hσ : ∀ j : ℕ, iteratePSO (scalarPSO ℚ fun x => x) (fun _ _ => 0)
      ⟨[⟨0, 0, (0, 0)⟩], 1, 0, 0, (⟨0, 0, (0, 0)⟩, 0)⟩ j =
      some ⟨[⟨0, 0, (0, 0)⟩], 1, 0, 0, (⟨0, 0, (0, 0)⟩, 0)⟩ := by
    intro j
    induction j with
    | zero => rfl
    | succ n ihn =>
      have hupd : PSO.update (scalarPSO ℚ fun x => x)
          (⟨[⟨0, 0, (0, 0)⟩], 1, 0, 0, (⟨0, 0, (0, 0)⟩, 0)⟩ :
            PSOState (SParticle ℚ) ℚ ℚ) ((fun _ _ => (0 : ℚ)) n) =
          some (⟨[⟨0, 0, (0, 0)⟩], 1, 0, 0, (⟨0, 0, (0, 0)⟩, 0)⟩, true) := by
        norm_num [PSO.update, pass1, pass2, pass3, calc_best, rustMax, scalarPSO]
      rw [iteratePSO, ihn, Option.some_bind, hupd, Option.map_some']
  refine ⟨by decide, hσ, ?_⟩
  exact pso_personal_best_history (scalarPSO ℚ fun x => x) (scalarPSO_lawful ℚ fun x => x)
    (fun _ _ => 0) ⟨[⟨0, 0, (0, 0)⟩], 1, 0, 0, (⟨0, 0, (0, 0)⟩, 0)⟩ (by decide)
    (fun _ => ⟨[⟨0, 0, (0, 0)⟩], 1, 0, 0, (⟨0, 0, (0, 0)⟩, 0)⟩) hσ 0
    (fun _ => ⟨0, 0, (0, 0)⟩) (fun _ => rfl) 1

/-- C9: for a 1-particle PSO population over ℝ with `c_local = c_global = 0`
and inertia `w ∈ [0, 1)`, along the iterated updates the velocity satisfies
`velocity_k = w ^ k * velocity_0` exactly, hence
`|velocity_k| ≤ w ^ k * |velocity_0|` (geometric shrinkage toward zero),
and the position sequence converges (asymptotically stabilizes). -/
theorem pso_zero_coeff_convergence (f : ℝ → ℝ) (w p0 v0 : ℝ) (pb : ℝ × ℝ)
    (q : SParticle ℝ) (e : ℝ) (hw0 : 0 ≤ w) (hw1 : w < 1) (R : ℕ → ℕ → ℝ) :
    ∃ P V : ℕ → ℝ,
      (∀ k, ∃ (bb : ℝ × ℝ) (best2 : SParticle ℝ × ℝ),
        iteratePSO (scalarPSO ℝ f) R ⟨[⟨p0, v0, pb⟩], w, 0, 0, (q, e)⟩ k =
          some ⟨[⟨P k, V k, bb⟩], w, 0, 0, best2⟩) ∧
      (∀ k, V k = w ^ k * v0) ∧
      (∀ k, |V k| ≤ w ^ k * |v0|) ∧
      ∃ L, Filter.Tendsto P Filter.atTop (nhds L) := by
  have hstep : ∀ (a b : ℝ) (bb : ℝ × ℝ) (bst : SParticle ℝ × ℝ) (r : ℕ → ℝ),
      ∃ (b2 : ℝ × ℝ) (best2 : SParticle ℝ × ℝ) (stg : Bool),
      PSO.update (scalarPSO ℝ f) ⟨[⟨a, b, bb⟩], w, 0, 0, bst⟩ r =
        some (⟨[⟨a + b, b * w, b2⟩], w, 0, 0, best2⟩, stg) := by
    intro a b bb bst r
    by_cases h3 : bb.2 < f (a + b)
    · by_cases h4 : bst.2 < f (a + b)
      · exact ⟨(a + b, f (a + b)), (⟨a + b, b * w, (a + b, f (a + b))⟩, f (a + b)), false,
          by simp [PSO.update, pass1, pass2, pass3, calc_best, rustMax, scalarPSO, h3, h4]⟩
      · exact ⟨(a + b, f (a + b)), bst, true,
          by simp [PSO.update, pass1, pass2, pass3, calc_best, rustMax, scalarPSO, h3, h4]⟩
    · by_cases h4 : bst.2 < f (a + b)
      · exact ⟨bb, (⟨a + b, b * w, bb⟩, f (a + b)), false,
          by simp [PSO.update, pass1, pass2, pass3, calc_best, rustMax, scalarPSO, h3, h4]⟩
      · exact ⟨bb, bst, true,
          by simp [PSO.update, pass1, pass2, pass3, calc_best, rustMax, scalarPSO, h3, h4]⟩
  refine ⟨fun k => p0 + v0 * (Finset.range k).sum fun j => w ^ j,
    fun k => w ^ k * v0, ?_, fun k => rfl, ?_, ?_⟩
  · intro k
    induction k with
    | zero =>
      refine ⟨pb, (q, e), ?_⟩
      simp [iteratePSO]
    | succ k ih =>
      obtain ⟨bb, best2, hk⟩ := ih
      obtain ⟨b2, bst2, stg, hupd⟩ := hstep
        (p0 + v0 * (Finset.range k).sum fun j => w ^ j) (w ^ k * v0) bb best2 (R k)
      rw [iteratePSO, hk, Option.some_bind, hupd, Option.map_some']
      refine ⟨b2, bst2, ?_⟩
      have hP : p0 + v0 * ((Finset.range k).sum fun j => w ^ j) + w ^ k * v0 =
          p0 + v0 * (Finset.range (k + 1)).sum fun j => w ^ j := by
        rw [Finset.sum_range_succ]
        ring
      have hV : w ^ k * v0 * w = w ^ (k + 1) * v0 := by
        ring
      rw [hP, hV]
  · intro k
    have : |w ^ k * v0| = w ^ k * |v0| := by
      rw [abs_mul, abs_pow, abs_of_nonneg hw0]
    exact le_of_eq this
  · have hgeo := hasSum_geometric_of_lt_one hw0 hw1
    exact ⟨p0 + v0 * (1 - w)⁻¹, (hgeo.tendsto_sum_nat.const_mul v0).const_add p0⟩

/-- Witness for C9 at `f = id`, `w = 1/2`, a unit initial velocity from the
origin and the zero random stream. -/
theorem pso_zero_coeff_convergence_witness :
    (0 : ℝ) ≤ 1 / 2 ∧ (1 / 2 : ℝ) < 1 ∧
    ∃ P V : ℕ → ℝ,
      (∀ k, ∃ (bb : ℝ × ℝ) (best2 : SParticle ℝ × ℝ),
        iteratePSO (scalarPSO ℝ fun x => x) (fun _ _ => 0)
            ⟨[⟨0, 1, (0, 0)⟩], 1 / 2, 0, 0, (⟨0, 0, (0, 0)⟩, 0)⟩ k =
          some ⟨[⟨P k, V k, bb⟩], 1 / 2, 0, 0, best2⟩) ∧
      (∀ k, V k = (1 / 2) ^ k * 1) ∧
      (∀ k, |V k| ≤ (1 / 2) ^ k * |(1 : ℝ)|) ∧
      ∃ L, Filter.Tendsto P Filter.atTop (nhds L) :=
  ⟨by norm_num, by norm_num,
   pso_zero_coeff_convergence (fun x => x) (1 / 2) 0 1 (0, 0) ⟨0, 0, (0, 0)⟩ 0
     (by norm_num) (by norm_num) (fun _ _ => 0)⟩
